import Mathlib

/-!
Verification development for the ViennaCL autotuning example
(`examples/autotuner/blas3.cpp`), the generator token management
(`viennacl/generator/tokens_management.hpp`) and the ILUT preconditioner
(`viennacl/linalg/detail/ilu/ilut.hpp`).

Machine reals (`double`) are idealised as exact rationals `ℚ`; comparisons
against `tau = drop_tolerance * sqrt(row_norm_sq)` are expressed by the
equivalent square-free test (see `drop_test`).  C++ `std::map` values are
modelled as association lists ordered by key; `std::string` accumulation is
modelled by `String` with explicit threading of the mutable counters.
-/

/- ===================== blas3.cpp : profiles and rounds ===================== -/

/-- The tunable kernel profile, mirroring the constructor argument order of
`matrix_product_profile` as used by `blas3_config::create_profile`
(blas3.cpp lines 30-36): block sizes ml/kl/nl, per-work-item tile ms/ks/ns,
local-memory staging flags, vector width and unroll factor. -/
structure matrix_product_profile where
  ml : Nat
  kl : Nat
  nl : Nat
  ms : Nat
  ks : Nat
  ns : Nat
  lhs_storage : Bool
  rhs_storage : Bool
  vector : Nat
  unroll : Nat
  deriving DecidableEq, Repr

/-- Step function `viennacl::generator::autotune::inc::mul_by_two`.
Modelled from the spec: the multiply-by-two axis step (autotune.hpp is not
among the sources). -/
def mul_by_two (v : Nat) : Nat := v * 2

/-- Step function `viennacl::generator::autotune::inc::add_one`.
Modelled from the spec: the add-one axis step (autotune.hpp is not among
the sources). -/
def add_one (v : Nat) : Nat := v + 1

/-- Fuelled iteration of one tuning axis from a current value up to `hi`. -/
def axis_go (step : Nat → Nat) (hi : Nat) : Nat → Nat → List Nat
  | 0, _ => []
  | fuel + 1, v => if v ≤ hi then v :: axis_go step hi fuel (step v) else []

/-- Modelled from the spec: a tuning axis enumerates its values from `lo` to
`hi` inclusive by repeated application of the step function (spec section
4.3; the enumeration itself lives in autotune.hpp which is not among the
sources).  The fuel `hi + 1` is ample for both observed step functions. -/
def axis_values (lo hi : Nat) (step : Nat → Nat) : List Nat :=
  axis_go step hi (hi + 1) lo

/-- Assembly of a profile from the current axis values, mirroring
`blas3_config::create_profile` (blas3.cpp lines 30-36); the storage flags
are `static_cast<bool>` of the numeric axis value. -/
def create_profile (ml kl nl ms ks ns : Nat) (lhs_st rhs_st : Nat)
    (vec unroll : Nat) : matrix_product_profile :=
  ⟨ml, kl, nl, ms, ks, ns, lhs_st ≠ 0, rhs_st ≠ 0, vec, unroll⟩

/-- Modelled from the spec: full-factorial enumeration of the parameter
space registered in `run_autotune` (blas3.cpp lines 77-86), nested
outer-to-inner in registration order (spec section 4.3). -/
def full_space : List matrix_product_profile :=
  (axis_values 16 256 mul_by_two).flatMap fun ml =>
  (axis_values 16 256 mul_by_two).flatMap fun kl =>
  (axis_values 16 256 mul_by_two).flatMap fun nl =>
  (axis_values 2 16 mul_by_two).flatMap fun ms =>
  (axis_values 2 16 mul_by_two).flatMap fun ks =>
  (axis_values 2 16 mul_by_two).flatMap fun ns =>
  (axis_values 1 4 mul_by_two).flatMap fun vec =>
  (axis_values 1 1 add_one).flatMap fun lhs_st =>
  (axis_values 0 0 add_one).flatMap fun rhs_st =>
  (axis_values 1 1 mul_by_two).map fun unroll =>
  create_profile ml kl nl ms ks ns lhs_st rhs_st vec unroll

/-- The round-end retention loop of `run_autotune` (blas3.cpp lines
138-145): walk the timing table with running index `n` and `break` as soon
as `n > n_keep`, pushing each profile seen before the break. -/
def keep_loop (n_keep : Nat) : Nat → List (ℚ × matrix_product_profile) →
    List matrix_product_profile
  | _, [] => []
  | n, t :: ts => if n > n_keep then [] else t.2 :: keep_loop n_keep (n + 1) ts

/-- Rebuilding `fastest_firsts` from the (ascending) timing table at the end
of a round (blas3.cpp lines 136-145): the list is cleared and refilled by
`keep_loop` starting at index 0. -/
def select_fastest (n_keep : Nat) (timings : List (ℚ × matrix_product_profile)) :
    List matrix_product_profile :=
  keep_loop n_keep 0 timings

/-- The round schedule of `run_autotune` (blas3.cpp lines 92-94). -/
def rounds_config : List (Nat × Nat) := [(512, 70), (4096, 20)]

/-- One pass of the round loop of `run_autotune` (blas3.cpp lines 96-146),
returning the list of candidate lists submitted to
`viennacl::generator::autotune::benchmark` per round.  The benchmark call
itself (compilation, launch and timing on the device) is external and is
abstracted as `bench`, which maps a problem size and a candidate list to
the resulting ascending timing table.  Round index `k = 0` submits the
tuning configuration (the enumerated `full_space`); every later round
submits the `fastest_firsts` retained from the previous round. -/
def autotune_go (bench : Nat → List matrix_product_profile →
    List (ℚ × matrix_product_profile)) :
    Nat → List (Nat × Nat) → List matrix_product_profile →
    List (List matrix_product_profile)
  | _, [], _ => []
  | k, (size, n_keep) :: rest, fastest_firsts =>
    let cands := if k = 0 then full_space else fastest_firsts
    let timings := bench size cands
    let retained := select_fastest n_keep timings
    cands :: autotune_go bench (k + 1) rest retained

/-- The per-round candidate lists submitted by `run_autotune` for the fixed
schedule `rounds_config`, starting with an empty `fastest_firsts` list. -/
def autotune_submitted (bench : Nat → List matrix_product_profile →
    List (ℚ × matrix_product_profile)) : List (List matrix_product_profile) :=
  autotune_go bench 0 rounds_config []

/- ===================== blas3.cpp : fill_matrix and round start ===================== -/

/-- The value of `RAND_MAX` on the glibc platform targeted by the example. -/
def c_rand_max : Nat := 2147483647

/-- One pseudo-random draw `rand()/RAND_MAX` as an exact rational, where
`rng k` is the `k`-th value returned by the C `rand()` stream. -/
def rand_val (rng : Nat → Nat) (k : Nat) : ℚ := (rng k : ℚ) / (c_rand_max : ℚ)

/-- Entry `(i, j)` of matrix `A` after `fill_matrix` (blas3.cpp line 57):
the destination operand is zero-filled. -/
def fill_A (_n : Nat) (_rng : Nat → Nat) (_i _j : Nat) : ℚ := 0

/-- Entry `(i, j)` of matrix `B` after `fill_matrix` (blas3.cpp line 58):
row-major traversal draws two values per position, `B` first. -/
def fill_B (n : Nat) (rng : Nat → Nat) (i j : Nat) : ℚ :=
  rand_val rng (2 * (i * n + j))

/-- Entry `(i, j)` of matrix `C` after `fill_matrix` (blas3.cpp line 59):
the draw immediately following the one consumed for `B(i,j)`. -/
def fill_C (n : Nat) (rng : Nat → Nat) (i j : Nat) : ℚ :=
  rand_val rng (2 * (i * n + j) + 1)

/-- Observable actions at the start of one tuning round. -/
inductive RoundEvent where
  | clearTimings : RoundEvent
  | allocate (size : Nat) : RoundEvent
  | fill : RoundEvent
  | finish : RoundEvent
  deriving DecidableEq, Repr

/-- The sequence of round-start actions of `run_autotune` (blas3.cpp lines
96-110): `timings.clear()` (line 98), allocation of the three operands
(lines 101-103), `fill_matrix` (line 105) whose tail synchronises the
device (line 66), and the further `viennacl::backend::finish()` at line
110. -/
def round_start_events (size : Nat) : List RoundEvent :=
  [RoundEvent.clearTimings, RoundEvent.allocate size, RoundEvent.fill,
   RoundEvent.finish, RoundEvent.finish]

/- ===================== blas3.cpp : main ===================== -/

/-- Decimal-digit accumulation for the C `atoi` model; stops at the first
non-digit character. -/
def digits_val : List Char → Nat → Nat
  | [], acc => acc
  | c :: cs, acc =>
    if c.isDigit then digits_val cs (acc * 10 + (c.toNat - 48)) else acc

/-- Model of C `atoi`: skip leading whitespace, accept an optional sign,
then a maximal run of decimal digits; any failure yields 0. -/
def atoi (s : String) : Int :=
  let cs := s.toList.dropWhile fun c =>
    c = ' ' || c = '\t' || c = '\n' || c = '\r'
  match cs with
  | '-' :: rest => -(digits_val rest 0 : Int)
  | '+' :: rest => (digits_val rest 0 : Int)
  | rest => (digits_val rest 0 : Int)

/-- The four GEMM variants. -/
inductive GemmVariant where
  | AA : GemmVariant
  | AT : GemmVariant
  | TA : GemmVariant
  | TT : GemmVariant
  deriving DecidableEq, Repr

/-- Variant selection inside `run_autotune` from the two transpose flags
(blas3.cpp lines 112-135): lhs and rhs transposition pick gemmTT / gemmTA /
gemmAT / gemmAA. -/
def gemm_variant (is_lhs_trans is_rhs_trans : Bool) : GemmVariant :=
  if is_lhs_trans then
    (if is_rhs_trans then GemmVariant.TT else GemmVariant.TA)
  else
    (if is_rhs_trans then GemmVariant.AT else GemmVariant.AA)

/-- The unchecked read of `args[3]` in `main` (blas3.cpp line 161),
rendered total: `none` exactly when the argument vector is too short. -/
def scalartype_read (args : List String) : Option String := args[3]?

/-- The `switch(layout)` dispatch of `main` (blas3.cpp lines 187-213):
cases 0-3 each run the autotuner when the scalar type is `"float"` or
`"double"` and otherwise do nothing; any other layout value matches no
case and also does nothing. -/
def run_layout (layout : Int) (scalartype : String) :
    Option (GemmVariant × String) :=
  if layout = 0 then
    (if scalartype = "float" ∨ scalartype = "double" then
      some (gemm_variant false false, scalartype) else none)
  else if layout = 1 then
    (if scalartype = "float" ∨ scalartype = "double" then
      some (gemm_variant true false, scalartype) else none)
  else if layout = 2 then
    (if scalartype = "float" ∨ scalartype = "double" then
      some (gemm_variant false true, scalartype) else none)
  else if layout = 3 then
    (if scalartype = "float" ∨ scalartype = "double" then
      some (gemm_variant true true, scalartype) else none)
  else none

/-- Observable outcome of one invocation of `main`. -/
structure MainResult where
  exitCode : Nat
  usageShown : Bool
  errorReported : Bool
  tuned : Option (GemmVariant × String)
  deriving DecidableEq, Repr

/-- Model of `main` (blas3.cpp lines 150-222).  With fewer than three
arguments the usage text is printed and the process exits with code 1.
Otherwise layout is parsed from `args[2]` and the scalar type read from
`args[3]` (an unchecked access, rendered total by defaulting to the empty
string); if the requested device is found the layout switch runs and the
process exits with code 0 (line 215), and if no device matches `main`
falls off the end, returning 0.  No path reports a configuration error. -/
def main_model (args : List String) (deviceFound : Bool) : MainResult :=
  if args.length < 3 then
    ⟨1, true, false, none⟩
  else
    let layout := atoi (args.getD 2 "")
    let scalartype := (scalartype_read args).getD ""
    if deviceFound then
      ⟨0, false, false, run_layout layout scalartype⟩
    else
      ⟨0, false, false, none⟩

/- ===================== tokens_management.hpp ===================== -/

/-- The expression typelists traversed by `fill_expression_updates`
(tokens_management.hpp lines 135-172): a sequence whose items are either
plain expression trees (identified here by a numeric id, since the C++
trees are types) or `repeater_impl` nodes carrying a bound name and a
nested expression list. -/
inductive GenExprs where
  | nil : GenExprs
  | tree (id : Nat) (rest : GenExprs) : GenExprs
  | repeater (boundName : String) (body : GenExprs) (rest : GenExprs) : GenExprs

/-- The compile-time count `tree_utils::count_if<Expressions,Pred>::value`
restricted to the toplevel items of a typelist as used at line 153. -/
def count_if (pred : Nat → Bool) : GenExprs → Nat
  | GenExprs.nil => 0
  | GenExprs.tree id rest => (if pred id then 1 else 0) + count_if pred rest
  | GenExprs.repeater _ body rest => count_if pred body + count_if pred rest

/-- The traversal of `fill_expression_updates` (tokens_management.hpp lines
138-171), threading the accumulated `generated_code` string and the
mutable `nested_repeats_counter`.  `leaf id` stands for
`make_expression_code<Tree>::value("gid")`, a pure function of the tree
type whose definition (make_code.hpp) is not among the sources; `pred`
stands for the compile-time predicate `Pred`. -/
def fill_updates (leaf : Nat → String) (pred : Nat → Bool) :
    GenExprs → String → Nat → String × Nat
  | GenExprs.nil, code, ctr => (code, ctr)
  | GenExprs.tree id rest, code, ctr =>
    let code := if pred id then code ++ leaf id ++ ";\n" else code
    fill_updates leaf pred rest code ctr
  | GenExprs.repeater b body rest, code, ctr =>
    if count_if pred body ≠ 0 then
      let rname := "Repeat" ++ toString ctr
      let code := code ++ "for(int " ++ rname ++ " = 0 ; " ++ rname ++
        " < " ++ b ++ " ; ++" ++ rname ++ ")\x7b\n"
      let step := fill_updates leaf pred body code (ctr + 1)
      fill_updates leaf pred rest (step.1 ++ "\x7d\n") step.2
    else
      fill_updates leaf pred rest code ctr

/-- The `execute` entry point (tokens_management.hpp lines 167-171): the
repeat counter is a fresh local (`unsigned int dummy = 0`), so each call
starts the traversal from counter value 0. -/
def execute_fill (leaf : Nat → String) (pred : Nat → Bool)
    (exprs : GenExprs) (generated_code : String) : String :=
  (fill_updates leaf pred exprs generated_code 0).1

/-- The section texts assembled by `body_code::value` besides the
expression-update traversal (tokens_management.hpp lines 261-288).  Each is
a deterministic compile-time computation over the expression types
(declarations, inner-product steps, the vector or matrix-product code);
their generators live in headers that are not among the sources and are
therefore carried as explicit data. -/
structure EmitPieces where
  scalarDecls : String
  inProdImplDecls : String
  inProdLeafDecls : String
  inProd0Code : String
  hasVectorAccess : Bool
  vectorCode : String
  inProd1Reduction : String
  scalarAssignments : String

/-- The kernel body emitted by `body_code::value` (tokens_management.hpp
lines 261-288): a brace-enclosed concatenation of the declaration
sections, the inner-product steps, the optional vector/product code, the
scalar expression updates (via `execute_fill`, counter reset to 0) and the
scalar assignments. -/
def body_code_value (ctx : EmitPieces) (leaf : Nat → String)
    (pred : Nat → Bool) (exprs : GenExprs) : String :=
  let res := "\x7b\n"
  let res := res ++ ctx.scalarDecls ++ ctx.inProdImplDecls ++ ctx.inProdLeafDecls
  let res := res ++ ctx.inProd0Code
  let res := if ctx.hasVectorAccess then res ++ ctx.vectorCode else res
  let res := res ++ ctx.inProd1Reduction
  let res := execute_fill leaf pred exprs res
  let res := res ++ ctx.scalarAssignments
  res ++ "\x7d\n"

/-- A call to `body_code::value` as seen by a caller that (hypothetically)
carries generator state between calls: the only mutable quantity in the
emission path is the repeat counter, and the source reinitialises it to 0
inside every call (line 169), so the carried value is unused and the
result is the pure `body_code_value` together with the counter left by the
traversal. -/
def body_code_value_call (ctx : EmitPieces) (leaf : Nat → String)
    (pred : Nat → Bool) (exprs : GenExprs) (_carried : Nat) : String × Nat :=
  (body_code_value ctx leaf pred exprs, (fill_updates leaf pred exprs "" 0).2)

/- ===================== ilut.hpp ===================== -/

/-- A row of a sparse matrix, modelling `std::map<SizeT, NumericT>`: an
association list ordered by strictly increasing key.  `double` values are
idealised as exact rationals. -/
abbrev IlutRow : Type := List (Nat × ℚ)

/-- The ILUT tag (ilut.hpp lines 45-83): number of kept entries per row in
each of L and U, and the drop tolerance. -/
structure ilut_tag where
  entries_per_row : Nat
  drop_tolerance : ℚ
  deriving DecidableEq, Repr

/-- Read access `row[k]` on a `std::map` row with the default value 0 (the
value `operator[]` yields for an absent key). -/
def lookupD (r : IlutRow) (k : Nat) : ℚ :=
  ((r.find? fun e => e.1 = k).map Prod.snd).getD 0

/-- Key-presence test on a row. -/
def hasKey (r : IlutRow) (k : Nat) : Bool :=
  r.any fun e => e.1 = k

/-- Ordered insert-or-replace, the `std::map` write `row[k] = v`. -/
def insertRow : IlutRow → Nat → ℚ → IlutRow
  | [], k, v => [(k, v)]
  | e :: t, k, v =>
    if k < e.1 then (k, v) :: e :: t
    else if k = e.1 then (k, v) :: t
    else e :: insertRow t k v

/-- The compound write `w[k] -= x` (ilut.hpp line 185): `operator[]`
defaults an absent key to 0, then subtracts. -/
def subAt (r : IlutRow) (k : Nat) (x : ℚ) : IlutRow :=
  insertRow r k (lookupD r k - x)

/-- The smallest key of `r` that is `≥ cur`, together with its value: the
position the `std::map` iterator of the elimination loop occupies after
advancing past all keys `< cur`. -/
def nextKeyGE (r : IlutRow) (cur : Nat) : Option (Nat × ℚ) :=
  r.find? fun e => cur ≤ e.1

/-- Sum of squared entries of a row: the square of the row norm computed by
`setup_w` for the STL-grown overload (ilut.hpp lines 113-124), which sets
`w = A[row]` and accumulates `iter_w->second * iter_w->second`. -/
def rowNormSq (r : IlutRow) : ℚ :=
  r.foldl (fun a e => a + e.2 * e.2) 0

/-- The threshold test `std::fabs(x) > tau_i` with
`tau_i = drop_tolerance * sqrt(rowNormSq)` (ilut.hpp lines 157 and 179),
expressed without square roots: for a nonnegative tolerance both sides are
nonnegative and the comparison squares; for a negative tolerance `tau_i`
is negative whenever the row norm is positive (making the test true) and
zero otherwise (making the test `x ≠ 0`). -/
def drop_test (tol rnSq x : ℚ) : Bool :=
  if 0 ≤ tol then decide (tol * tol * rnSq < x * x)
  else decide (0 < rnSq ∨ x ≠ 0)

/-- The inner update of the elimination step (ilut.hpp lines 182-186): for
every entry of `output[k]` with column beyond `k`, subtract
`w_k_entry * u_k->second` from the corresponding entry of `w`. -/
def elim_update (w : IlutRow) (k : Nat) (wk : ℚ) (rowk : IlutRow) : IlutRow :=
  rowk.foldl (fun acc e => if k < e.1 then subAt acc e.1 (wk * e.2) else acc) w

/-- The elimination loop over `w` (ilut.hpp lines 160-191).  The iterator
is represented by the lower bound `cur` on the keys still to visit (map
iteration is in ascending key order, and all insertions performed by
`elim_update` are at keys beyond the current one).  Processing of key `k`
stops once `k ≥ i`; a zero diagonal `output[k][k]` raises the fatal
exception; otherwise the entry is divided by the diagonal, written back,
and, when it passes the threshold test, eliminated against row `k`.
The fuel argument only bounds the recursion; `i + 1` steps always
suffice because each processed key is strictly below `i` and strictly
increasing. -/
def elimLoop (out : List IlutRow) (i : Nat) (tol rnSq : ℚ) :
    Nat → Nat → IlutRow → Except String IlutRow
  | 0, _, w => Except.ok w
  | fuel + 1, cur, w =>
    match nextKeyGE w cur with
    | none => Except.ok w
    | some (k, v) =>
      if i ≤ k then Except.ok w
      else
        let a_kk := lookupD (out.getD k []) k
        if a_kk = 0 then Except.error "ILUT zero diagonal!"
        else
          let wk := v / a_kk
          let w1 := insertRow w k wk
          let w2 := if drop_test tol rnSq wk then
              elim_update w1 k wk (out.getD k []) else w1
          elimLoop out i tol rnSq fuel (k + 1) w2

/-- The dropping rule of lines 195-210: keep an entry when it passes the
threshold test or is the diagonal (`k == i`). -/
def drop_keep (i : Nat) (tol rnSq : ℚ) (w : IlutRow) : IlutRow :=
  w.filter fun e => drop_test tol rnSq e.2 || e.1 = i

/-- Insertion into the `std::multimap` keyed by absolute value (ilut.hpp
line 208): an equal key is placed after all existing equal keys. -/
def tm_insert (e : Nat × ℚ) : List (Nat × ℚ) → List (Nat × ℚ)
  | [] => [e]
  | f :: t => if |e.2| < |f.2| then e :: f :: t else f :: tm_insert e t

/-- The kept entries ordered as the write loop visits them: the multimap is
filled in `w` order and then iterated in reverse (lines 215), so the list
is sorted by decreasing absolute value with ties in reverse insertion
order. -/
def tm_sorted (kept : List (Nat × ℚ)) : List (Nat × ℚ) :=
  (kept.foldl (fun acc e => tm_insert e acc) []).reverse

/-- The dropping stage of one row (ilut.hpp lines 195-210): filter `w` by
the dropping rule, raise the singularity exception when a kept entry is
zero (`abs_w_k <= 0`, possible only for the diagonal), and otherwise hand
the survivors to the write loop in multimap reverse order. -/
def dropAndSort (i : Nat) (tol rnSq : ℚ) (w : IlutRow) :
    Except String (List (Nat × ℚ)) :=
  let kept := drop_keep i tol rnSq w
  if kept.any (fun e => e.2 = 0) then
    Except.error "Triangular factor in ILUT singular!"
  else Except.ok (tm_sorted kept)

/-- One step of the write loop (ilut.hpp lines 215-241): an entry below the
diagonal is written while fewer than `entries_per_row` L-entries have been
written, the diagonal is always written, and an entry beyond the diagonal
is written while fewer than `entries_per_row` U-entries have been
written. -/
def write_step (i eps : Nat) (st : IlutRow × Nat × Nat) (e : Nat × ℚ) :
    IlutRow × Nat × Nat :=
  if e.1 < i then
    (if st.2.1 < eps then (insertRow st.1 e.1 e.2, st.2.1 + 1, st.2.2) else st)
  else if e.1 = i then (insertRow st.1 e.1 e.2, st.2.1, st.2.2)
  else
    (if st.2.2 < eps then (insertRow st.1 e.1 e.2, st.2.1, st.2.2 + 1) else st)

/-- The write loop over the sorted survivors, starting from the empty row
`output[i]` with both counters at zero (ilut.hpp lines 213-241). -/
def writeRow (i eps : Nat) (sorted : List (Nat × ℚ)) : IlutRow :=
  (sorted.foldl (write_step i eps) ([], 0, 0)).1

/-- The body of one iteration of the row loop of `precondition` (ilut.hpp
lines 150-245): set up `w` from row `i` of `A` (STL overload of `setup_w`),
run the elimination loop, apply the dropping rule and write the survivors
into row `i` of the output. -/
def precond_row (tag : ilut_tag) (A : List IlutRow) (out : List IlutRow)
    (i : Nat) : Except String (List IlutRow) :=
  let w := A.getD i []
  let rnSq := rowNormSq w
  let tol := tag.drop_tolerance
  match elimLoop out i tol rnSq (i + 1) 0 w with
  | Except.error e => Except.error e
  | Except.ok w1 =>
    match dropAndSort i tol rnSq w1 with
    | Except.error e => Except.error e
    | Except.ok sorted =>
      Except.ok (out.set i (writeRow i tag.entries_per_row sorted))

/-- The row loop of `precondition` (ilut.hpp line 150): process the listed
row indices in order, threading the output matrix and propagating the two
fatal exceptions. -/
def precond_go (tag : ilut_tag) (A : List IlutRow) :
    List Nat → List IlutRow → Except String (List IlutRow)
  | [], out => Except.ok out
  | i :: rest, out =>
    match precond_row tag A out i with
    | Except.error e => Except.error e
    | Except.ok out1 => precond_go tag A rest out1

/-- `viennacl::linalg::precondition` for the STL-grown sparse input
(ilut.hpp lines 136-246): iterate the row body over all rows in ascending
order, starting from an output of empty rows of matching size. -/
def precondition (A : List IlutRow) (tag : ilut_tag) :
    Except String (List IlutRow) :=
  precond_go tag A (List.range A.length) (List.replicate A.length [])

/- ===================== helper lemmas ===================== -/

theorem keep_loop_eq_take (n_keep : Nat) (l : List (ℚ × matrix_product_profile)) :
    ∀ n : Nat, keep_loop n_keep n l = (l.take (n_keep + 1 - n)).map Prod.snd := by
  induction l with
  | nil => intro n; simp [keep_loop]
  | cons t ts ih =>
    intro n
    by_cases h : n > n_keep
    · have h0 : n_keep + 1 - n = 0 := by omega
      simp [keep_loop, h, h0]
    · have h2 : n_keep + 1 - n = (n_keep + 1 - (n + 1)) + 1 := by omega
      simp [keep_loop, h, h2, ih (n + 1)]

theorem rand_val_bounds (rng : Nat → Nat) (k : Nat)
    (h : ∀ m, rng m ≤ c_rand_max) :
    0 ≤ rand_val rng k ∧ rand_val rng k ≤ 1 := by
  constructor
  · exact div_nonneg (Nat.cast_nonneg _) (by norm_num [c_rand_max])
  · rw [rand_val, div_le_one (by norm_num [c_rand_max])]
    exact_mod_cast h k

/- ===================== claim theorems ===================== -/

/-- C1 counterexample: with `keep_count = 0` and two timed candidates, the
retained list holds one profile, so its size exceeds `keep_count` and it is
not the first-`keep_count` prefix of the timing table. -/
theorem C1_counterexample :
    select_fastest 0 [(1, create_profile 16 16 16 2 2 2 1 0 1 1),
                      (2, create_profile 32 16 16 2 2 2 1 0 1 1)] =
      [create_profile 16 16 16 2 2 2 1 0 1 1] ∧
    ¬ (select_fastest 0 [(1, create_profile 16 16 16 2 2 2 1 0 1 1),
                         (2, create_profile 32 16 16 2 2 2 1 0 1 1)]).length ≤ 0 := by
  exact ⟨rfl, by decide⟩

/-- C1 (amended): at the end of a round, the retained list is the profiles
of the first `keep_count + 1` entries of the ascending timing table (the
loop breaks only once the running index exceeds `keep_count`), hence its
size is `min (keep_count + 1) (number timed)`, at most the number of
candidates timed in the round. -/
theorem C1_retained_profiles (n_keep : Nat)
    (timings : List (ℚ × matrix_product_profile))
    (_hasc : timings.Pairwise fun a b => a.1 < b.1) :
    select_fastest n_keep timings = (timings.take (n_keep + 1)).map Prod.snd ∧
    (select_fastest n_keep timings).length = min (n_keep + 1) timings.length ∧
    (select_fastest n_keep timings).length ≤ timings.length := by
  have h := keep_loop_eq_take n_keep timings 0
  simp only [Nat.sub_zero] at h
  refine ⟨h, ?_, ?_⟩
  · rw [select_fastest, h, List.length_map, List.length_take]
  · rw [select_fastest, h, List.length_map, List.length_take]
    omega

/-- C1 witness: the amended statement evaluated on a concrete one-entry
timing table with `keep_count = 1`. -/
theorem C1_witness :
    select_fastest 1 [((1 : ℚ), create_profile 16 16 16 2 2 2 1 0 1 1)] =
      ([((1 : ℚ), create_profile 16 16 16 2 2 2 1 0 1 1)].take 2).map Prod.snd ∧
    (select_fastest 1 [((1 : ℚ), create_profile 16 16 16 2 2 2 1 0 1 1)]).length =
      min 2 [((1 : ℚ), create_profile 16 16 16 2 2 2 1 0 1 1)].length ∧
    (select_fastest 1 [((1 : ℚ), create_profile 16 16 16 2 2 2 1 0 1 1)]).length ≤
      [((1 : ℚ), create_profile 16 16 16 2 2 2 1 0 1 1)].length :=
  C1_retained_profiles 1 _ (by simp)

/-- C2: for the program's two-round schedule, round 0 submits exactly the
full enumerated parameter space to the benchmark and round 1 submits
exactly the profiles retained from round 0's timing table; the full space
appears only at round index 0 and is never re-enumerated. -/
theorem C2_round_candidates (bench : Nat → List matrix_product_profile →
    List (ℚ × matrix_product_profile)) :
    autotune_submitted bench =
      [full_space, select_fastest 70 (bench 512 full_space)] := rfl

/-- C3 counterexample: layout 4 passes the argument-count check but matches
no case of the switch, and the process exits 0 with no error reported and
no tuning run. -/
theorem C3_counterexample :
    (main_model ["prog", "0", "4", "float"] true).exitCode = 0 ∧
    (main_model ["prog", "0", "4", "float"] true).errorReported = false ∧
    (main_model ["prog", "0", "4", "float"] true).tuned = none := by
  exact ⟨rfl, rfl, rfl⟩

/-- C3 (amended): for every invocation passing the argument-count check but
naming an unsupported layout (outside 0-3) or an unsupported scalar type
(neither "float" nor "double"), the process performs no tuning, reports no
error, and exits with code 0 (the switch silently falls through to
`exit(0)`). -/
theorem C3_unsupported_silent (args : List String) (found : Bool)
    (hlen : ¬ args.length < 3)
    (hbad : (atoi (args.getD 2 "") ≠ 0 ∧ atoi (args.getD 2 "") ≠ 1 ∧
             atoi (args.getD 2 "") ≠ 2 ∧ atoi (args.getD 2 "") ≠ 3) ∨
            ((scalartype_read args).getD "" ≠ "float" ∧
             (scalartype_read args).getD "" ≠ "double")) :
    main_model args found = ⟨0, false, false, none⟩ := by
  have hrl : ∀ (L : ℤ) (S : String),
      ((L ≠ 0 ∧ L ≠ 1 ∧ L ≠ 2 ∧ L ≠ 3) ∨ (S ≠ "float" ∧ S ≠ "double")) →
      run_layout L S = none := by
    intro L S hb
    rcases hb with ⟨h0, h1, h2, h3⟩ | ⟨hf, hd⟩
    · simp [run_layout, h0, h1, h2, h3]
    · have hst : ¬ (S = "float" ∨ S = "double") := by tauto
      unfold run_layout
      split <;> simp [hst]
  unfold main_model
  rw [if_neg hlen]
  cases found
  · rfl
  · simp only [if_true]
    rw [hrl _ _ hbad]

/-- C3 witness: the amended statement at a concrete invocation with the
unsupported layout 9. -/
theorem C3_witness :
    main_model ["p", "0", "9", "double"] true = ⟨0, false, false, none⟩ :=
  C3_unsupported_silent ["p", "0", "9", "double"] true (by decide)
    (Or.inl (by decide))

/-- C4: with a supported scalar type, layout 0 selects the AA variant
(no transposition), layout 1 selects TA (left operand transposed), layout
2 selects AT (right operand transposed) and layout 3 selects TT (both
transposed). -/
theorem C4_layout_variants (p d s : String)
    (hs : s = "float" ∨ s = "double") :
    (main_model [p, d, "0", s] true).tuned = some (GemmVariant.AA, s) ∧
    (main_model [p, d, "1", s] true).tuned = some (GemmVariant.TA, s) ∧
    (main_model [p, d, "2", s] true).tuned = some (GemmVariant.AT, s) ∧
    (main_model [p, d, "3", s] true).tuned = some (GemmVariant.TT, s) := by
  rcases hs with rfl | rfl <;> exact ⟨rfl, rfl, rfl, rfl⟩

/-- C4 witness: the variant mapping at a concrete invocation with scalar
type "float". -/
theorem C4_witness :
    (main_model ["p", "0", "0", "float"] true).tuned =
      some (GemmVariant.AA, "float") ∧
    (main_model ["p", "0", "1", "float"] true).tuned =
      some (GemmVariant.TA, "float") ∧
    (main_model ["p", "0", "2", "float"] true).tuned =
      some (GemmVariant.AT, "float") ∧
    (main_model ["p", "0", "3", "float"] true).tuned =
      some (GemmVariant.TT, "float") :=
  C4_layout_variants "p" "0" "float" (Or.inl rfl)

/-- C5 counterexample: the destination matrix `A` is zero-filled regardless
of the pseudo-random stream (here the stream constantly draws
`1/RAND_MAX ≠ 0`, so `A`'s entry is not a drawn value), and the timing
table is cleared as the first action of the round, before the fill, not
after it. -/
theorem C5_counterexample :
    fill_A 2 (fun _ => 1) 0 0 = 0 ∧
    rand_val (fun _ => 1) (2 * (0 * 2 + 0)) ≠ 0 ∧
    round_start_events 512 =
      [RoundEvent.clearTimings, RoundEvent.allocate 512, RoundEvent.fill,
       RoundEvent.finish, RoundEvent.finish] := by
  refine ⟨rfl, ?_, rfl⟩
  norm_num [rand_val, c_rand_max]

/-- C5 (amended): at the start of every round the timing table is cleared
first, the three operands are allocated at `problem_size × problem_size`,
the destination `A` is zero-filled while `B` and `C` receive consecutive
pseudo-random draws `rand()/RAND_MAX` lying in the closed interval [0,1],
and the device is then synchronised. -/
theorem C5_fill_behaviour (n : Nat) (rng : Nat → Nat) (i j : Nat)
    (h : ∀ m, rng m ≤ c_rand_max) :
    fill_A n rng i j = 0 ∧
    fill_B n rng i j = rand_val rng (2 * (i * n + j)) ∧
    fill_C n rng i j = rand_val rng (2 * (i * n + j) + 1) ∧
    0 ≤ fill_B n rng i j ∧ fill_B n rng i j ≤ 1 ∧
    0 ≤ fill_C n rng i j ∧ fill_C n rng i j ≤ 1 ∧
    round_start_events n =
      [RoundEvent.clearTimings, RoundEvent.allocate n, RoundEvent.fill,
       RoundEvent.finish, RoundEvent.finish] := by
  obtain ⟨hb0, hb1⟩ := rand_val_bounds rng (2 * (i * n + j)) h
  obtain ⟨hc0, hc1⟩ := rand_val_bounds rng (2 * (i * n + j) + 1) h
  exact ⟨rfl, rfl, rfl, hb0, hb1, hc0, hc1, rfl⟩

/-- C5 witness: the amended statement on a concrete 1×1 round with the
all-zero pseudo-random stream. -/
theorem C5_witness :
    fill_A 1 (fun _ => 0) 0 0 = 0 ∧
    fill_B 1 (fun _ => 0) 0 0 = rand_val (fun _ => 0) (2 * (0 * 1 + 0)) ∧
    fill_C 1 (fun _ => 0) 0 0 = rand_val (fun _ => 0) (2 * (0 * 1 + 0) + 1) ∧
    0 ≤ fill_B 1 (fun _ => 0) 0 0 ∧ fill_B 1 (fun _ => 0) 0 0 ≤ 1 ∧
    0 ≤ fill_C 1 (fun _ => 0) 0 0 ∧ fill_C 1 (fun _ => 0) 0 0 ≤ 1 ∧
    round_start_events 1 =
      [RoundEvent.clearTimings, RoundEvent.allocate 1, RoundEvent.fill,
       RoundEvent.finish, RoundEvent.finish] :=
  C5_fill_behaviour 1 (fun _ => 0) 0 0 (fun _ => Nat.zero_le _)

/-- C6: with fewer than three argument-vector entries the program prints
the usage text and exits with code 1; whenever a tuning run was performed
(the layout switch dispatched to the autotuner) the process exits with
code 0. -/
theorem C6_exit_codes (args : List String) (found : Bool) :
    (args.length < 3 → main_model args found = ⟨1, true, false, none⟩) ∧
    (∀ v, (main_model args found).tuned = some v →
      (main_model args found).exitCode = 0) := by
  constructor
  · intro h
    simp [main_model, h]
  · intro v hv
    by_cases h : args.length < 3
    · simp [main_model, h] at hv
    · cases found <;> simp [main_model, h]

/-- C6 witness: the exit codes at two concrete invocations, one with too
few arguments and one completing an AA/float tuning run. -/
theorem C6_witness :
    main_model ["p"] true = ⟨1, true, false, none⟩ ∧
    (main_model ["p", "0", "0", "float"] true).exitCode = 0 :=
  ⟨(C6_exit_codes ["p"] true).1 (by decide),
   (C6_exit_codes ["p", "0", "0", "float"] true).2
     (GemmVariant.AA, "float") rfl⟩

/-- C9: with exactly three argument-vector entries the insufficient
argument guard does not fire (no usage message), and the subsequent read
of `args[3]` is one past the end of the vector: in the total embedding it
yields no value. -/
theorem C9_args_out_of_bounds (args : List String) (found : Bool)
    (h : args.length = 3) :
    (main_model args found).usageShown = false ∧
    scalartype_read args = none := by
  constructor
  · have h3 : ¬ args.length < 3 := by omega
    cases found <;> simp [main_model, h3]
  · exact List.getElem?_eq_none (by omega)

/-- C9 witness: the out-of-bounds read at a concrete three-entry argument
vector. -/
theorem C9_witness :
    (main_model ["prog", "0", "1"] true).usageShown = false ∧
    scalartype_read ["prog", "0", "1"] = none :=
  C9_args_out_of_bounds ["prog", "0", "1"] true (by decide)

theorem fill_updates_shift (leaf : Nat → String) (pred : Nat → Bool) :
    ∀ (exprs : GenExprs) (c : Nat) (s : String),
      fill_updates leaf pred exprs s c =
        (s ++ (fill_updates leaf pred exprs "" c).1,
         (fill_updates leaf pred exprs "" c).2) := by
  intro exprs
  induction exprs with
  | nil => intro c s; simp [fill_updates]
  | tree id rest ih =>
    intro c s
    obtain ⟨R1, R2, hR⟩ : ∃ x y, fill_updates leaf pred rest "" c = (x, y) :=
      ⟨_, _, rfl⟩
    have hr : ∀ t, fill_updates leaf pred rest t c = (t ++ R1, R2) :=
      fun t => by rw [ih, hR]
    by_cases hp : pred id <;>
      simp [fill_updates, hp, hr, String.append_assoc]
  | repeater b body rest ihb ihr =>
    intro c s
    by_cases hc : count_if pred body = 0
    · obtain ⟨R1, R2, hR⟩ : ∃ x y, fill_updates leaf pred rest "" c = (x, y) :=
        ⟨_, _, rfl⟩
      have hr : ∀ t, fill_updates leaf pred rest t c = (t ++ R1, R2) :=
        fun t => by rw [ihr, hR]
      simp [fill_updates, hc, hr]
    · obtain ⟨B1, B2, hB⟩ : ∃ x y, fill_updates leaf pred body "" (c + 1) = (x, y) :=
        ⟨_, _, rfl⟩
      obtain ⟨R1, R2, hR⟩ : ∃ x y, fill_updates leaf pred rest "" B2 = (x, y) :=
        ⟨_, _, rfl⟩
      have hb : ∀ t, fill_updates leaf pred body t (c + 1) = (t ++ B1, B2) :=
        fun t => by rw [ihb, hB]
      have hr : ∀ t, fill_updates leaf pred rest t B2 = (t ++ R1, R2) :=
        fun t => by rw [ihr, hR]
      simp [fill_updates, hc, hb, hr, String.append_assoc]

/-- C7: kernel-body emission has no hidden mutable state.  The text a
traversal appends to the accumulated code depends only on the expression
list and the incoming repeat counter, never on the previously generated
text; and since `body_code::value` reinitialises the counter on every
call, two successive calls of the emitter (each receiving whatever
counter state the previous call left behind) produce byte-identical
source text. -/
theorem C7_emission_deterministic (leaf : Nat → String) (pred : Nat → Bool)
    (exprs : GenExprs) (c : Nat) (s : String) (ctx : EmitPieces)
    (carried₁ carried₂ : Nat) :
    fill_updates leaf pred exprs s c =
      (s ++ (fill_updates leaf pred exprs "" c).1,
       (fill_updates leaf pred exprs "" c).2) ∧
    (body_code_value_call ctx leaf pred exprs carried₁).1 =
      (body_code_value_call ctx leaf pred exprs carried₂).1 :=
  ⟨fill_updates_shift leaf pred exprs c s, rfl⟩

/-- C8: during elimination of row `i`, if the consulted diagonal entry
`output[k][k]` (with `k` the next working-vector column below `i`) is
exactly zero, the elimination loop aborts with the exception
"ILUT zero diagonal!" rather than continuing. -/
theorem C8_zero_diagonal_throws (out : List IlutRow) (i : Nat) (tol rnSq : ℚ)
    (fuel cur : Nat) (w : IlutRow) (k : Nat) (v : ℚ)
    (hfind : nextKeyGE w cur = some (k, v)) (hk : k < i)
    (hz : lookupD (out.getD k []) k = 0) :
    elimLoop out i tol rnSq (fuel + 1) cur w =
      Except.error "ILUT zero diagonal!" := by
  rw [List.getD_eq_getElem?_getD] at hz
  simp [elimLoop, hfind, Nat.not_le.mpr hk, hz]

/-- C8 witness: a concrete elimination state in which row 0 of the output
carries no diagonal entry (so `output[0][0]` defaults to zero) aborts with
the zero-diagonal exception. -/
theorem C8_witness :
    elimLoop [[(1, (1 : ℚ))]] 1 0 0 1 0 [(0, (3 : ℚ))] =
      Except.error "ILUT zero diagonal!" :=
  C8_zero_diagonal_throws [[(1, (1 : ℚ))]] 1 0 0 0 0 [(0, (3 : ℚ))] 0 3
    rfl (by decide) rfl

theorem hasKey_insertRow_self (r : IlutRow) (k : Nat) (v : ℚ) :
    hasKey (insertRow r k v) k = true := by
  induction r with
  | nil => simp [insertRow, hasKey]
  | cons e t ih =>
    by_cases h1 : k < e.1
    · simp [insertRow, h1, hasKey]
    · by_cases h2 : k = e.1
      · simp [insertRow, h1, h2, hasKey]
      · simp only [insertRow, if_neg h1, if_neg h2]
        simp [hasKey] at ih ⊢
        exact Or.inr ih

theorem hasKey_insertRow_of (r : IlutRow) (k : Nat) (v : ℚ) (j : Nat)
    (h : hasKey r j = true) : hasKey (insertRow r k v) j = true := by
  induction r with
  | nil => simp [hasKey] at h
  | cons e t ih =>
    simp [hasKey] at h
    by_cases h1 : k < e.1
    · simp [insertRow, h1, hasKey]
      rcases h with h | h
      · exact Or.inr (Or.inl h)
      · exact Or.inr (Or.inr h)
    · by_cases h2 : k = e.1
      · simp [insertRow, h1, h2, hasKey]
        rcases h with h | h
        · exact Or.inl (by omega)
        · exact Or.inr h
      · simp only [insertRow, if_neg h1, if_neg h2]
        simp [hasKey]
        rcases h with h | h
        · exact Or.inl h
        · have := ih (by simp [hasKey, h])
          simp [hasKey] at this
          exact Or.inr this

theorem countP_insertRow (r : IlutRow) (k : Nat) (v : ℚ) (q : Nat → Bool) :
    (insertRow r k v).countP (fun e => q e.1) ≤
      r.countP (fun e => q e.1) + (if q k then 1 else 0) := by
  induction r with
  | nil => simp [insertRow, List.countP_cons]
  | cons e t ih =>
    by_cases h1 : k < e.1
    · simp [insertRow, h1, List.countP_cons]
    · by_cases h2 : k = e.1
      · subst h2
        simp [insertRow, h1, List.countP_cons]
      · simp only [insertRow, if_neg h1, if_neg h2]
        by_cases hq : q k <;> simp [List.countP_cons, hq] at ih ⊢ <;> omega

theorem write_step_inv (i eps : Nat) (st : IlutRow × Nat × Nat) (e : Nat × ℚ)
    (hLT : st.1.countP (fun x => decide (x.1 < i)) ≤ st.2.1)
    (hGT : st.1.countP (fun x => decide (i < x.1)) ≤ st.2.2)
    (hl : st.2.1 ≤ eps) (hu : st.2.2 ≤ eps) :
    (write_step i eps st e).1.countP (fun x => decide (x.1 < i)) ≤
      (write_step i eps st e).2.1 ∧
    (write_step i eps st e).1.countP (fun x => decide (i < x.1)) ≤
      (write_step i eps st e).2.2 ∧
    (write_step i eps st e).2.1 ≤ eps ∧ (write_step i eps st e).2.2 ≤ eps := by
  have hc1 : (insertRow st.1 e.1 e.2).countP (fun x => decide (x.1 < i)) ≤
      st.1.countP (fun x => decide (x.1 < i)) + (if e.1 < i then 1 else 0) := by
    have h := countP_insertRow st.1 e.1 e.2 (fun x => decide (x < i))
    by_cases hq : e.1 < i <;> simpa [hq] using h
  have hc2 : (insertRow st.1 e.1 e.2).countP (fun x => decide (i < x.1)) ≤
      st.1.countP (fun x => decide (i < x.1)) + (if i < e.1 then 1 else 0) := by
    have h := countP_insertRow st.1 e.1 e.2 (fun x => decide (i < x))
    by_cases hq : i < e.1 <;> simpa [hq] using h
  by_cases h1 : e.1 < i
  · rw [if_pos h1] at hc1
    rw [if_neg (by omega)] at hc2
    by_cases hwl : st.2.1 < eps
    · simp only [write_step, if_pos h1, if_pos hwl]
      exact ⟨by omega, by omega, by omega, hu⟩
    · simp only [write_step, if_pos h1, if_neg hwl]
      exact ⟨hLT, hGT, hl, hu⟩
  · rw [if_neg h1] at hc1
    by_cases h2 : e.1 = i
    · rw [if_neg (by omega)] at hc2
      simp only [write_step, if_neg h1, if_pos h2]
      exact ⟨by omega, by omega, hl, hu⟩
    · rw [if_pos (by omega)] at hc2
      by_cases hwu : st.2.2 < eps
      · simp only [write_step, if_neg h1, if_neg h2, if_pos hwu]
        exact ⟨by omega, by omega, hl, by omega⟩
      · simp only [write_step, if_neg h1, if_neg h2, if_neg hwu]
        exact ⟨hLT, hGT, hl, hu⟩

theorem write_fold_inv (i eps : Nat) (l : List (Nat × ℚ)) :
    ∀ st : IlutRow × Nat × Nat,
      st.1.countP (fun x => decide (x.1 < i)) ≤ st.2.1 →
      st.1.countP (fun x => decide (i < x.1)) ≤ st.2.2 →
      st.2.1 ≤ eps → st.2.2 ≤ eps →
      (l.foldl (write_step i eps) st).1.countP (fun x => decide (x.1 < i)) ≤ eps ∧
      (l.foldl (write_step i eps) st).1.countP (fun x => decide (i < x.1)) ≤ eps := by
  induction l with
  | nil =>
    intro st hLT hGT hl hu
    exact ⟨le_trans hLT hl, le_trans hGT hu⟩
  | cons e t ih =>
    intro st hLT hGT hl hu
    obtain ⟨i1, i2, i3, i4⟩ := write_step_inv i eps st e hLT hGT hl hu
    simpa using ih (write_step i eps st e) i1 i2 i3 i4

theorem writeRow_counts (i eps : Nat) (sorted : List (Nat × ℚ)) :
    (writeRow i eps sorted).countP (fun x => decide (x.1 < i)) ≤ eps ∧
    (writeRow i eps sorted).countP (fun x => decide (i < x.1)) ≤ eps := by
  have h := write_fold_inv i eps sorted ([], 0, 0) (by simp) (by simp)
    (Nat.zero_le _) (Nat.zero_le _)
  exact h

theorem hasKey_write_step (i eps : Nat) (st : IlutRow × Nat × Nat)
    (e : Nat × ℚ) (h : hasKey st.1 i = true) :
    hasKey (write_step i eps st e).1 i = true := by
  unfold write_step
  split
  · split
    · exact hasKey_insertRow_of _ _ _ _ h
    · exact h
  · split
    · exact hasKey_insertRow_of _ _ _ _ h
    · split
      · exact hasKey_insertRow_of _ _ _ _ h
      · exact h

theorem hasKey_write_fold (i eps : Nat) (l : List (Nat × ℚ)) :
    ∀ st : IlutRow × Nat × Nat, hasKey st.1 i = true →
      hasKey (l.foldl (write_step i eps) st).1 i = true := by
  induction l with
  | nil => intro st h; exact h
  | cons e t ih =>
    intro st h
    simpa using ih (write_step i eps st e) (hasKey_write_step i eps st e h)

theorem hasKey_write_fold_mem (i eps : Nat) (l : List (Nat × ℚ)) :
    ∀ (st : IlutRow × Nat × Nat) (v : ℚ), (i, v) ∈ l →
      hasKey (l.foldl (write_step i eps) st).1 i = true := by
  induction l with
  | nil => intro st v h; simp at h
  | cons e t ih =>
    intro st v h
    rcases List.mem_cons.mp h with he | ht
    · have hstep : hasKey (write_step i eps st e).1 i = true := by
        subst he
        have h1 : ¬ ((i, v).1 < i) := by omega
        simp only [write_step, if_neg h1]
        simp [hasKey_insertRow_self]
      simpa using hasKey_write_fold i eps t (write_step i eps st e) hstep
    · simpa using ih (write_step i eps st e) v ht

theorem writeRow_diag (i eps : Nat) (sorted : List (Nat × ℚ)) (v : ℚ)
    (h : (i, v) ∈ sorted) : hasKey (writeRow i eps sorted) i = true :=
  hasKey_write_fold_mem i eps sorted ([], 0, 0) v h

theorem hasKey_subAt (r : IlutRow) (k : Nat) (x : ℚ) (j : Nat)
    (h : hasKey r j = true) : hasKey (subAt r k x) j = true :=
  hasKey_insertRow_of r k _ j h

theorem hasKey_elim_update (rowk : List (Nat × ℚ)) :
    ∀ (w : IlutRow) (k : Nat) (wk : ℚ) (j : Nat), hasKey w j = true →
      hasKey (elim_update w k wk rowk) j = true := by
  induction rowk with
  | nil => intro w k wk j h; exact h
  | cons e t ih =>
    intro w k wk j h
    simp only [elim_update, List.foldl_cons]
    by_cases hk : k < e.1
    · rw [if_pos hk]
      exact ih (subAt w e.1 (wk * e.2)) k wk j (hasKey_subAt w e.1 _ j h)
    · rw [if_neg hk]
      exact ih w k wk j h

theorem elimLoop_hasKey (out : List IlutRow) (i : Nat) (tol rnSq : ℚ)
    (j : Nat) :
    ∀ (fuel cur : Nat) (w w' : IlutRow),
      elimLoop out i tol rnSq fuel cur w = Except.ok w' →
      hasKey w j = true → hasKey w' j = true := by
  intro fuel
  induction fuel with
  | zero =>
    intro cur w w' hrun hk
    simp [elimLoop] at hrun
    rw [← hrun]
    exact hk
  | succ fuel ih =>
    intro cur w w' hrun hk
    rw [elimLoop] at hrun
    cases hfind : nextKeyGE w cur with
    | none =>
      rw [hfind] at hrun
      simp at hrun
      rw [← hrun]
      exact hk
    | some kv =>
      obtain ⟨k, v⟩ := kv
      rw [hfind] at hrun
      by_cases hik : i ≤ k
      · simp [hik] at hrun
        rw [← hrun]
        exact hk
      · simp only [if_neg hik] at hrun
        by_cases hz : lookupD (out.getD k []) k = 0
        · rw [if_pos hz] at hrun
          simp at hrun
        · rw [if_neg hz] at hrun
          refine ih (k + 1) _ w' hrun ?_
          have hw1 : hasKey (insertRow w k (v / lookupD (out.getD k []) k)) j = true :=
            hasKey_insertRow_of w k _ j hk
          by_cases hd : drop_test tol rnSq (v / lookupD (out.getD k []) k) = true
          · rw [if_pos hd]
            exact hasKey_elim_update _ _ k _ j hw1
          · rw [if_neg hd]
            exact hw1

theorem hasKey_exists (r : IlutRow) (j : Nat) (h : hasKey r j = true) :
    ∃ v, (j, v) ∈ r := by
  simp only [hasKey, List.any_eq_true] at h
  obtain ⟨e, he, hej⟩ := h
  refine ⟨e.2, ?_⟩
  have : e.1 = j := by simpa using hej
  rw [← this]
  simpa using he

theorem mem_drop_keep_diag (i : Nat) (tol rnSq : ℚ) (w : IlutRow) (v : ℚ)
    (h : (i, v) ∈ w) : (i, v) ∈ drop_keep i tol rnSq w := by
  simp [drop_keep, List.mem_filter, h]

theorem mem_tm_insert_self (e : Nat × ℚ) (l : List (Nat × ℚ)) :
    e ∈ tm_insert e l := by
  induction l with
  | nil => simp [tm_insert]
  | cons f t ih =>
    by_cases hf : |e.2| < |f.2|
    · simp [tm_insert, hf]
    · simp [tm_insert, hf]
      exact Or.inr ih

theorem mem_tm_insert_of (e f : Nat × ℚ) (l : List (Nat × ℚ))
    (h : f ∈ l) : f ∈ tm_insert e l := by
  induction l with
  | nil => simp at h
  | cons g t ih =>
    by_cases hg : |e.2| < |g.2|
    · simp [tm_insert, hg]
      rcases List.mem_cons.mp h with h | h
      · exact Or.inr (Or.inl h)
      · exact Or.inr (Or.inr h)
    · simp [tm_insert, hg]
      rcases List.mem_cons.mp h with h | h
      · exact Or.inl h
      · exact Or.inr (ih h)

theorem mem_tm_sorted (kept : List (Nat × ℚ)) (e : Nat × ℚ)
    (h : e ∈ kept) : e ∈ tm_sorted kept := by
  rw [tm_sorted, List.mem_reverse]
  suffices hgen : ∀ acc : List (Nat × ℚ), e ∈ acc ∨ e ∈ kept →
      e ∈ kept.foldl (fun acc f => tm_insert f acc) acc from
    hgen [] (Or.inr h)
  clear h
  induction kept with
  | nil =>
    intro acc h
    rcases h with h | h
    · exact h
    · simp at h
  | cons f t ih =>
    intro acc h
    simp only [List.foldl_cons]
    rcases h with h | h
    · exact ih (tm_insert f acc) (Or.inl (mem_tm_insert_of f e acc h))
    · rcases List.mem_cons.mp h with h | h
      · subst h
        exact ih (tm_insert e acc) (Or.inl (mem_tm_insert_self e acc))
      · exact ih (tm_insert f acc) (Or.inr h)

theorem dropAndSort_diag (i : Nat) (tol rnSq : ℚ) (w : IlutRow)
    (sorted : List (Nat × ℚ))
    (hok : dropAndSort i tol rnSq w = Except.ok sorted)
    (hk : hasKey w i = true) : ∃ v, (i, v) ∈ sorted := by
  obtain ⟨v, hv⟩ := hasKey_exists w i hk
  have h1 : (i, v) ∈ drop_keep i tol rnSq w := mem_drop_keep_diag i tol rnSq w v hv
  unfold dropAndSort at hok
  by_cases ha : (drop_keep i tol rnSq w).any (fun e => e.2 = 0) = true
  · simp [ha] at hok
  · simp only [ha] at hok
    simp at hok
    rw [← hok]
    exact ⟨v, mem_tm_sorted _ _ h1⟩

theorem precond_row_ok (tag : ilut_tag) (A : List IlutRow)
    (out : List IlutRow) (i : Nat) (res : List IlutRow)
    (h : precond_row tag A out i = Except.ok res) :
    ∃ sorted : List (Nat × ℚ),
      res = out.set i (writeRow i tag.entries_per_row sorted) ∧
      (hasKey (A.getD i []) i = true → ∃ v, (i, v) ∈ sorted) := by
  replace h : (match elimLoop out i tag.drop_tolerance (rowNormSq (A.getD i []))
      (i + 1) 0 (A.getD i []) with
    | Except.error e => Except.error e
    | Except.ok w1 =>
      match dropAndSort i tag.drop_tolerance (rowNormSq (A.getD i [])) w1 with
      | Except.error e => Except.error e
      | Except.ok sorted =>
        Except.ok (out.set i (writeRow i tag.entries_per_row sorted))) =
      Except.ok res := h
  cases helim : elimLoop out i tag.drop_tolerance (rowNormSq (A.getD i []))
      (i + 1) 0 (A.getD i []) with
  | error e => rw [helim] at h; simp at h
  | ok w1 =>
    rw [helim] at h
    replace h : (match dropAndSort i tag.drop_tolerance (rowNormSq (A.getD i [])) w1 with
      | Except.error e => Except.error e
      | Except.ok sorted =>
        Except.ok (out.set i (writeRow i tag.entries_per_row sorted))) =
        Except.ok res := h
    cases hds : dropAndSort i tag.drop_tolerance (rowNormSq (A.getD i [])) w1 with
    | error e => rw [hds] at h; simp at h
    | ok sorted =>
      rw [hds] at h
      simp only [Except.ok.injEq] at h
      refine ⟨sorted, h.symm, ?_⟩
      intro hk
      have hkw1 : hasKey w1 i = true :=
        elimLoop_hasKey out i _ _ i (i + 1) 0 _ w1 helim hk
      exact dropAndSort_diag i _ _ w1 sorted hds hkw1

theorem precond_go_shape (tag : ilut_tag) (A : List IlutRow) :
    ∀ (l : List Nat) (acc res : List IlutRow),
      precond_go tag A l acc = Except.ok res →
      res.length = acc.length ∧
      ∀ i, i < acc.length →
        (i ∈ l →
          ((res.getD i []).countP (fun x => decide (x.1 < i)) ≤ tag.entries_per_row ∧
           (res.getD i []).countP (fun x => decide (i < x.1)) ≤ tag.entries_per_row ∧
           (hasKey (A.getD i []) i = true → hasKey (res.getD i []) i = true))) ∧
        (i ∉ l → res.getD i [] = acc.getD i []) := by
  intro l
  induction l with
  | nil =>
    intro acc res h
    simp only [precond_go, Except.ok.injEq] at h
    subst h
    exact ⟨rfl, fun i _ => ⟨fun hmem => absurd hmem (by simp), fun _ => rfl⟩⟩
  | cons j t ih =>
    intro acc res h
    simp only [precond_go] at h
    cases hstep : precond_row tag A acc j with
    | error e => rw [hstep] at h; simp at h
    | ok out1 =>
      rw [hstep] at h
      obtain ⟨sorted, hout1, hdiag⟩ := precond_row_ok tag A acc j out1 hstep
      have hlen1 : out1.length = acc.length := by rw [hout1, List.length_set]
      obtain ⟨hlenr, hall⟩ := ih out1 res h
      refine ⟨by rw [hlenr, hlen1], fun i hi => ?_⟩
      have hi1 : i < out1.length := by omega
      constructor
      · intro hmem
        by_cases hit : i ∈ t
        · exact (hall i hi1).1 hit
        · have hij : i = j := by
            rcases List.mem_cons.mp hmem with h | h
            · exact h
            · exact absurd h hit
          subst hij
          have hpres : res.getD i [] = out1.getD i [] := (hall i hi1).2 hit
          have hrow : out1.getD i [] = writeRow i tag.entries_per_row sorted := by
            rw [hout1, List.getD_eq_getElem?_getD,
              List.getElem?_set_self (by omega), Option.getD_some]
          rw [hpres, hrow]
          obtain ⟨hcl, hcu⟩ := writeRow_counts i tag.entries_per_row sorted
          refine ⟨hcl, hcu, fun hk => ?_⟩
          obtain ⟨v, hv⟩ := hdiag hk
          exact writeRow_diag i tag.entries_per_row sorted v hv
      · intro hnot
        have hij : i ≠ j := fun hh => hnot (hh ▸ List.mem_cons_self j t)
        have hit : i ∉ t := fun hh => hnot (List.mem_cons_of_mem j hh)
        have hpres : res.getD i [] = out1.getD i [] := (hall i hi1).2 hit
        rw [hpres, hout1, List.getD_eq_getElem?_getD,
          List.getElem?_set_ne (fun hh => hij hh.symm),
          ← List.getD_eq_getElem?_getD]

/-- C10 counterexample: on the 1×1 matrix whose single row stores no
entries, `precondition` returns without throwing, yet output row 0
contains no diagonal entry (the working vector never acquires column 0,
so the write loop never writes it). -/
theorem C10_counterexample :
    precondition [([] : IlutRow)] ⟨20, 1 / 10000⟩ = Except.ok [[]] ∧
    hasKey (([[]] : List IlutRow).getD 0 []) 0 = false := ⟨rfl, rfl⟩

/-- C10 (amended): whenever `precondition` returns without throwing, every
output row `i` stores at most `entries_per_row` entries with column index
below `i` and at most `entries_per_row` entries with column index beyond
`i`; and row `i` contains its diagonal entry provided the input row `i`
itself stores a diagonal entry (a row whose working vector never contains
column `i` is written without one). -/
theorem C10_row_shape (A : List IlutRow) (tag : ilut_tag) (out : List IlutRow)
    (hok : precondition A tag = Except.ok out) (i : Nat) (hi : i < A.length) :
    (out.getD i []).countP (fun x => decide (x.1 < i)) ≤ tag.entries_per_row ∧
    (out.getD i []).countP (fun x => decide (i < x.1)) ≤ tag.entries_per_row ∧
    (hasKey (A.getD i []) i = true → hasKey (out.getD i []) i = true) := by
  have h := precond_go_shape tag A (List.range A.length)
    (List.replicate A.length []) out hok
  exact (h.2 i (by simpa using hi)).1 (List.mem_range.mpr hi)

/-- C10 witness: the amended statement evaluated on a concrete 2×2 input at
row index 1. -/
theorem C10_witness :
    (([[], []] : List IlutRow).getD 1 []).countP (fun x => decide (x.1 < 1)) ≤ 20 ∧
    (([[], []] : List IlutRow).getD 1 []).countP (fun x => decide (1 < x.1)) ≤ 20 ∧
    (hasKey (([[], []] : List IlutRow).getD 1 []) 1 = true →
      hasKey (([[], []] : List IlutRow).getD 1 []) 1 = true) :=
  C10_row_shape [[], []] ⟨20, 1 / 10000⟩ [[], []] rfl 1 (by decide)
